import Mathlib

/-!
Verification of the deal-pipeline matrix core of `simple_deal_dashboard.py`:
stage-progression reconstruction (`get_deal_stage_progression`), period-axis
generation and matrix building (`create_period_matrix`), stagnation analysis
(`calculate_stagnant_deals`) and tolerant timestamp parsing (the
`parse_single_date` closure of the date-parsing helper).

Timestamps are modelled as a calendar date (year, month, day) plus a
seconds-past-midnight component, ordered lexicographically, exactly the
order Python `datetime` comparison induces.  Python operations that can
raise (`datetime.replace` with an out-of-range day) are modelled with
`Option`, `none` standing for the raised exception.
-/

namespace HubspotDashboard

/-- A calendar date, as carried by a Python `datetime`. -/
structure Date where
  year : Nat
  month : Nat
  day : Nat
deriving DecidableEq, Repr

/-- Leap-year rule of the Gregorian calendar (Python `calendar.isleap`). -/
def isLeap (y : Nat) : Bool :=
  (y % 4 == 0 && y % 100 != 0) || (y % 400 == 0)

/-- Number of days of month `m` of year `y`. -/
def daysInMonth (y m : Nat) : Nat :=
  if m = 2 then (if isLeap y then 29 else 28)
  else if m = 4 ∨ m = 6 ∨ m = 9 ∨ m = 11 then 30
  else 31

/-- The dates representable by a Python `datetime` (year bounds ignored). -/
def Date.Valid (d : Date) : Prop :=
  1 ≤ d.month ∧ d.month ≤ 12 ∧ 1 ≤ d.day ∧ d.day ≤ daysInMonth d.year d.month

instance (d : Date) : Decidable d.Valid := by
  unfold Date.Valid; infer_instance

/-- A timestamp: date plus seconds past midnight, as a Python `datetime`
(all timestamps are normalized to the same UTC offset by the code). -/
structure DateTime where
  date : Date
  sec : Nat
deriving DecidableEq, Repr

/-- Python `datetime` comparison `a <= b` (lexicographic on the fields). -/
def DateTime.le (a b : DateTime) : Prop :=
  a.date.year < b.date.year ∨
    (a.date.year = b.date.year ∧
      (a.date.month < b.date.month ∨
        (a.date.month = b.date.month ∧
          (a.date.day < b.date.day ∨
            (a.date.day = b.date.day ∧ a.sec ≤ b.sec)))))

/-- Python `datetime` comparison `a < b`. -/
def DateTime.lt (a b : DateTime) : Prop :=
  a.date.year < b.date.year ∨
    (a.date.year = b.date.year ∧
      (a.date.month < b.date.month ∨
        (a.date.month = b.date.month ∧
          (a.date.day < b.date.day ∨
            (a.date.day = b.date.day ∧ a.sec < b.sec)))))

instance (a b : DateTime) : Decidable (DateTime.le a b) := by
  unfold DateTime.le; infer_instance

instance (a b : DateTime) : Decidable (DateTime.lt a b) := by
  unfold DateTime.lt; infer_instance

theorem DateTime.le_refl (a : DateTime) : DateTime.le a a := by
  unfold DateTime.le; omega

theorem DateTime.le_trans {a b c : DateTime} (h1 : DateTime.le a b)
    (h2 : DateTime.le b c) : DateTime.le a c := by
  unfold DateTime.le at *; omega

theorem DateTime.lt_of_lt_of_le {a b c : DateTime} (h1 : DateTime.lt a b)
    (h2 : DateTime.le b c) : DateTime.lt a c := by
  unfold DateTime.lt DateTime.le at *; omega

theorem DateTime.le_of_lt {a b : DateTime} (h : DateTime.lt a b) :
    DateTime.le a b := by
  unfold DateTime.lt DateTime.le at *; omega

theorem DateTime.not_lt_iff_le {a b : DateTime} :
    ¬ DateTime.lt a b ↔ DateTime.le b a := by
  unfold DateTime.lt DateTime.le; omega

theorem DateTime.not_le_iff_lt {a b : DateTime} :
    ¬ DateTime.le a b ↔ DateTime.lt b a := by
  unfold DateTime.lt DateTime.le; omega

theorem DateTime.le_total (a b : DateTime) :
    DateTime.le a b ∨ DateTime.le b a := by
  unfold DateTime.le; omega

/-- Successor date: `datetime + timedelta(days=1)` at the calendar level. -/
def nextDay (d : Date) : Date :=
  if d.day < daysInMonth d.year d.month then ⟨d.year, d.month, d.day + 1⟩
  else if d.month < 12 then ⟨d.year, d.month + 1, 1⟩
  else ⟨d.year + 1, 1, 1⟩

/-- Adding `n` days to a calendar date. -/
def addDaysDate (n : Nat) (d : Date) : Date :=
  Nat.iterate nextDay n d

/-- Python `t + timedelta(days=n)` (the time of day is unchanged). -/
def DateTime.addDays (n : Nat) (t : DateTime) : DateTime :=
  ⟨addDaysDate n t.date, t.sec⟩

/-- Python `t.replace(year=t.year+1, month=1)` / `t.replace(month=t.month+1)`
used by the Monthly branches of `create_period_matrix` (source lines
453-456 and 486-489).  `datetime.replace` raises `ValueError` when the kept
day-of-month does not exist in the target month; `none` models the raise. -/
def monthStep (t : DateTime) : Option DateTime :=
  if t.date.month = 12 then
    if t.date.day ≤ daysInMonth (t.date.year + 1) 1 then
      some ⟨⟨t.date.year + 1, 1, t.date.day⟩, t.sec⟩
    else none
  else
    if t.date.day ≤ daysInMonth t.date.year (t.date.month + 1) then
      some ⟨⟨t.date.year, t.date.month + 1, t.date.day⟩, t.sec⟩
    else none

/-- Analysis frequency selected in the dashboard. -/
inductive Frequency where
  | Daily
  | Weekly
  | Monthly
deriving DecidableEq, Repr

/-- One advance of the period-generation loop variable (source lines
441-456): a day for Daily, a week for Weekly and a calendar-month
`replace` for Monthly. -/
def freqStep : Frequency → DateTime → Option DateTime
  | .Daily, t => some (DateTime.addDays 1 t)
  | .Weekly, t => some (DateTime.addDays 7 t)
  | .Monthly, t => monthStep t

/-- Strictly monotone (on valid dates) flattening of a date, used only to
bound the period-generation loop. -/
def dateIndex (d : Date) : Nat :=
  d.year * 512 + d.month * 32 + d.day

def dtIndex (t : DateTime) : Nat := dateIndex t.date

/-- The `while current_date <= end_date` loop of `create_period_matrix`
(source lines 438-456), fuelled; `none` is returned when a Monthly step
raises or when the fuel runs out (the latter never happens for the fuel
chosen in `genPeriods`). -/
def genPeriodsAux : Nat → DateTime → DateTime → Frequency → Option (List DateTime)
  | 0, _, _, _ => none
  | fuel + 1, cur, e, f =>
      if DateTime.le cur e then
        match freqStep f cur with
        | none => none
        | some nxt =>
            match genPeriodsAux fuel nxt e f with
            | none => none
            | some rest => some (cur :: rest)
      else some []

/-- Fuel large enough for the loop: each step raises `dtIndex` by at least
one, so the loop guard fails before the fuel is exhausted. -/
def periodFuel (s e : DateTime) : Nat :=
  dtIndex e + 1 - dtIndex s + 1

/-- The period-start list produced by `create_period_matrix`
(source lines 437-456), oldest first. -/
def genPeriods (s e : DateTime) (f : Frequency) : Option (List DateTime) :=
  genPeriodsAux (periodFuel s e) s e f

/-- Iterating the frequency step `k` times, starting from `t`. -/
def stepIter (f : Frequency) : Nat → DateTime → Option DateTime
  | 0, t => some t
  | k + 1, t =>
      match freqStep f t with
      | none => none
      | some t' => stepIter f k t'

/-- The per-period end boundary computed inside the matrix loop
(source lines 478-489). -/
def periodEnd : Frequency → DateTime → Option DateTime
  | .Daily, pd => some (DateTime.addDays 1 pd)
  | .Weekly, pd => some (DateTime.addDays 7 pd)
  | .Monthly, pd => monthStep pd

/-- The `stage_mapping` dictionary of `get_deal_stage_progression`
(source lines 381-417), in insertion order. -/
def stage_mapping : List (String × String) :=
  [("hs_v2_date_entered_1091569281", "Sign-up"),
   ("hs_v2_date_entered_1053523303", "Outreach done"),
   ("hs_v2_date_entered_1053523302", "To reach out"),
   ("hs_v2_date_entered_qualifiedtobuy", "Demo Booked"),
   ("hs_v2_date_entered_presentationscheduled", "Demo Done"),
   ("hs_v2_date_entered_appointmentscheduled", "Relevant Reply"),
   ("hs_v2_date_entered_contractsent", "Customer Converted"),
   ("hs_v2_date_entered_closedwon", "Closed Won"),
   ("hs_v2_date_entered_1141834547", "Post-demo follow-up"),
   ("hs_v2_date_entered_1053523301", "Follow-up done"),
   ("hs_v2_date_entered_1158033067", "$$$$ follow-ups"),
   ("hs_v2_date_entered_1155410330", "Active trial $$$$ #haisha"),
   ("hs_v2_date_entered_202676095", "Junk"),
   ("hs_v2_date_entered_981662285", "Not a good fit"),
   ("hs_v2_date_entered_closedlost", "Closed Lost"),
   ("hs_v2_date_entered_1053507879", "Churned"),
   ("hs_v2_date_entered_1155516059", "PoC not right but company relevant"),
   ("hs_v2_date_entered_1120008054", "Timing not right"),
   ("hs_v2_date_entered_202676096", "No Show"),
   ("hs_v2_date_entered_999971918", "Cold call done")]

/-- One normalized deal row, as consumed by `get_deal_stage_progression`
and `create_period_matrix`: `stageTs` associates a stage field identifier
with its parsed timestamp; a field that is absent from the CSV row or
whose value is `NaT` is simply not in the list (the code treats both
alike through `field in row and pd.notna(row[field])`). -/
structure DealRecord where
  deal_id : String
  dealname : String
  created_at : Option DateTime
  stageTs : List (String × DateTime)
deriving DecidableEq, Repr

/-- The events collected by the `for field, stage_name in
stage_mapping.items()` loop (source lines 419-421), in catalog order. -/
def stageEvents (r : DealRecord) : List (String × DateTime) :=
  stage_mapping.filterMap fun p =>
    (List.lookup p.1 r.stageTs).map fun t => (p.2, t)

/-- Stable insertion of an event into an already-collected suffix: the
event is placed before the first event whose timestamp is not strictly
smaller.  Folding this over the list is extensionally the stable
ascending `list.sort(key=lambda x: x[1])` of Python (source line 424). -/
def insertEvent (x : String × DateTime) : List (String × DateTime) → List (String × DateTime)
  | [] => [x]
  | y :: ys =>
      if DateTime.lt y.2 x.2 then y :: insertEvent x ys
      else x :: y :: ys

/-- Stable ascending sort by timestamp. -/
def sortEvents : List (String × DateTime) → List (String × DateTime)
  | [] => []
  | x :: xs => insertEvent x (sortEvents xs)

/-- Embedding of `get_deal_stage_progression` (source lines 378-425): collect the
named stage timestamps present on the row and sort them ascending by
timestamp with a stable sort. -/
def get_deal_stage_progression (r : DealRecord) : List (String × DateTime) :=
  sortEvents (stageEvents r)

/-- The `for stage_name, stage_date in progression` scan with `break`
(source lines 499-503); `acc` is the running `stage_during_period`. -/
def scanStage : List (String × DateTime) → DateTime → String → String
  | [], _, acc => acc
  | (name, ts) :: rest, pe, acc =>
      if DateTime.le ts pe then scanStage rest pe name
      else acc

/-- The cell value for one deal and one period end boundary
(source lines 492-505): empty when the deal's creation timestamp is known
and strictly after the boundary, otherwise the result of the progression
scan. -/
def matrixCell (deal : DealRecord) (pe : DateTime) : String :=
  match deal.created_at with
  | some c =>
      if DateTime.lt pe c then ""
      else scanStage (get_deal_stage_progression deal) pe ""
  | none => scanStage (get_deal_stage_progression deal) pe ""

/-- The `for period_date in period_dates` loop body for one deal
(source lines 477-505), producing the period cells in period order;
`none` models a raised `ValueError` from a Monthly `replace`. -/
def dealRowCells (deal : DealRecord) (f : Frequency) : List DateTime → Option (List String)
  | [] => some []
  | pd :: rest =>
      match periodEnd f pd with
      | none => none
      | some pe =>
          match dealRowCells deal f rest with
          | none => none
          | some cs => some (matrixCell deal pe :: cs)

/-- One row of the emitted matrix (the display/metadata columns other
than name and id are presentation pass-through). -/
structure MatrixRow where
  dealName : String
  dealId : String
  cells : List String
deriving DecidableEq, Repr

/-- The `for _, deal in df.iterrows()` loop (source lines 461-507):
one row per deal, each with one cell per period. -/
def matrixRows (f : Frequency) (pds : List DateTime) : List DealRecord → Option (List MatrixRow)
  | [] => some []
  | deal :: rest =>
      match dealRowCells deal f pds with
      | none => none
      | some cs =>
          match matrixRows f pds rest with
          | none => none
          | some rows => some (⟨deal.dealname, deal.deal_id, cs⟩ :: rows)

/-- Embedding of `create_period_matrix` (source lines 427-509): generate the period
starts, then build one row per deal. -/
def create_period_matrix (deals : List DealRecord) (s e : DateTime)
    (f : Frequency) : Option (List MatrixRow) :=
  match genPeriods s e f with
  | none => none
  | some pds => matrixRows f pds deals

/-- One record of the stagnation report. -/
structure StagnationRecord where
  deal_name : String
  deal_id : String
  current_stage : String
  stagnant_periods : Nat
  total_periods : Nat
deriving DecidableEq, Repr

/-- The `stages = [stage for stage in row[period_columns] if stage]`
comprehension of `calculate_stagnant_deals` (source line 517): the
non-empty cells of a row, oldest first. -/
def rowStages (r : MatrixRow) : List String :=
  r.cells.filter fun s => s != ""

/-- The per-row body of `calculate_stagnant_deals` (source lines
516-536): keep the non-empty cells, and when there is at least one,
report the last one together with the length of the trailing run of
cells equal to it (the backward `for i in range(len(stages)-1, -1, -1)`
count); a row with no populated cell yields no record. -/
def stagnationRow (r : MatrixRow) : Option StagnationRecord :=
  match (rowStages r).getLast? with
  | none => none
  | some last =>
      some ⟨r.dealName, r.dealId, last,
        ((rowStages r).reverse.takeWhile fun s => s == last).length,
        (rowStages r).length⟩

/-- Embedding of `calculate_stagnant_deals` (source lines 511-538). -/
def calculate_stagnant_deals (rows : List MatrixRow) : List StagnationRecord :=
  rows.filterMap stagnationRow

/-- The raw CSV shape of a deal row: timestamps still unparsed strings
(`none` standing for a missing/NaN CSV cell). -/
structure RawDealRecord where
  deal_id : String
  dealname : String
  created_at : Option String
  stageFields : List (String × Option String)

/-- Applying a timestamp parser to every date column of a raw row, as
`load_and_process_data` does with the robust date parsing helper
(source lines 334-337): unparseable values become absent. -/
def loadDealRecord (parse : Option String → Option DateTime)
    (r : RawDealRecord) : DealRecord :=
  { deal_id := r.deal_id
    dealname := r.dealname
    created_at := parse r.created_at
    stageTs := r.stageFields.filterMap fun p =>
      (parse p.2).map fun t => (p.1, t) }

/-- The `parse_single_date` closure of the robust date parsing helper
(source lines 279-307).  The three pandas parsing primitives —
`pd.to_datetime(s)`, `pd.to_datetime(s, format='ISO8601')` and
`pd.to_datetime(s, format='%Y-%m-%dT%H:%M:%SZ')` — are parameters;
`Except.error` models a raised parsing exception.  The chain mirrors the
nested `try`/`except` blocks: standard parse, then the add-milliseconds
variant or the ISO8601 retry, then the manual fixed format, and finally
`pd.NaT` (here `none`). -/
def parse_single_date (p_std p_iso p_manual : String → Except Unit DateTime) :
    Option String → Option DateTime
  | none => none
  | some str =>
      if str = "" then none
      else
        match p_std str with
        | .ok v => some v
        | .error _ =>
            match
              (if str.contains 'T' && str.contains 'Z' && !(str.contains '.')
                  && str.endsWith "Z" then
                p_std (str.dropRight 1 ++ ".000Z")
              else
                p_iso str) with
            | .ok v => some v
            | .error _ =>
                if str.length = 20 && str.endsWith "Z" then
                  match p_manual str with
                  | .ok v => some v
                  | .error _ => none
                else none

/-! ### Order facts used by the sorting and scanning proofs -/

theorem DateTime.lt_irrefl (a : DateTime) : ¬ DateTime.lt a a := by
  unfold DateTime.lt; omega

theorem getLast?_cons_eq_some {α : Type} (a : α) (l : List α) :
    (a :: l).getLast? = some (l.getLast?.getD a) := by
  cases l <;> simp [List.getLast?_cons]

/-- Timestamp-ordering of two events. -/
def evLe (a b : String × DateTime) : Prop := DateTime.le a.2 b.2

/-! ### The stable insertion sort modelling Python `list.sort(key=...)` -/

theorem insertEvent_perm (x : String × DateTime) (l : List (String × DateTime)) :
    List.Perm (insertEvent x l) (x :: l) := by
  induction l with
  | nil => exact List.Perm.refl _
  | cons y ys ih =>
      unfold insertEvent
      split
      · exact List.Perm.trans (List.Perm.cons y ih) (List.Perm.swap x y ys)
      · exact List.Perm.refl _

theorem sortEvents_perm (l : List (String × DateTime)) :
    List.Perm (sortEvents l) l := by
  induction l with
  | nil => exact List.Perm.refl _
  | cons x xs ih =>
      exact List.Perm.trans (insertEvent_perm x (sortEvents xs)) (List.Perm.cons x ih)

theorem insertEvent_pairwise (x : String × DateTime) (l : List (String × DateTime))
    (h : l.Pairwise evLe) : (insertEvent x l).Pairwise evLe := by
  induction l with
  | nil => simp [insertEvent]
  | cons y ys ih =>
      obtain ⟨hy, hys⟩ := List.pairwise_cons.mp h
      unfold insertEvent
      split
      · rename_i hlt
        refine List.pairwise_cons.mpr ⟨?_, ih hys⟩
        intro z hz
        rcases List.mem_cons.mp ((insertEvent_perm x ys).mem_iff.mp hz) with rfl | hzys
        · exact DateTime.le_of_lt hlt
        · exact hy z hzys
      · rename_i hnlt
        refine List.pairwise_cons.mpr ⟨?_, h⟩
        intro z hz
        rcases List.mem_cons.mp hz with rfl | hzys
        · exact DateTime.not_lt_iff_le.mp hnlt
        · exact DateTime.le_trans (DateTime.not_lt_iff_le.mp hnlt) (hy z hzys)

theorem sortEvents_pairwise (l : List (String × DateTime)) :
    (sortEvents l).Pairwise evLe := by
  induction l with
  | nil => simp [sortEvents]
  | cons x xs ih => exact insertEvent_pairwise x (sortEvents xs) ih

theorem insertEvent_filter_ts (x : String × DateTime) (l : List (String × DateTime))
    (t : DateTime) :
    (insertEvent x l).filter (fun e => e.2 == t) =
      (x :: l).filter (fun e => e.2 == t) := by
  induction l with
  | nil => rfl
  | cons y ys ih =>
      unfold insertEvent
      split
      · rename_i hlt
        by_cases hx : x.2 = t
        · by_cases hy : y.2 = t
          · rw [hx, hy] at hlt
            exact absurd hlt (DateTime.lt_irrefl t)
          · simp [List.filter_cons, hx, hy, ih]
        · by_cases hy : y.2 = t
          · simp [List.filter_cons, hx, hy, ih]
          · simp [List.filter_cons, hx, hy, ih]
      · rfl

theorem sortEvents_filter_ts (l : List (String × DateTime)) (t : DateTime) :
    (sortEvents l).filter (fun e => e.2 == t) = l.filter (fun e => e.2 == t) := by
  induction l with
  | nil => rfl
  | cons x xs ih =>
      calc (sortEvents (x :: xs)).filter (fun e => e.2 == t)
          = ((x :: sortEvents xs).filter fun e => e.2 == t) :=
            insertEvent_filter_ts x (sortEvents xs) t
        _ = (x :: xs).filter (fun e => e.2 == t) := by
            by_cases hx : x.2 = t
            · simp [List.filter_cons, hx, ih]
            · simp [List.filter_cons, hx, ih]

/-! ### The progression scan computes the last event at or before the boundary -/

theorem scanStage_eq (pe : DateTime) (l : List (String × DateTime)) :
    ∀ acc : String, l.Pairwise evLe →
    scanStage l pe acc =
      (((l.filter fun e => decide (DateTime.le e.2 pe)).getLast?).map Prod.fst).getD acc := by
  induction l with
  | nil => intro acc _; rfl
  | cons x rest ih =>
      intro acc h
      obtain ⟨hx, hrest⟩ := List.pairwise_cons.mp h
      obtain ⟨name, ts⟩ := x
      by_cases hle : DateTime.le ts pe
      · have hscan : scanStage ((name, ts) :: rest) pe acc = scanStage rest pe name := by
          simp [scanStage, hle]
        rw [hscan, ih name hrest]
        have hfil : ((name, ts) :: rest).filter (fun e => decide (DateTime.le e.2 pe)) =
            (name, ts) :: rest.filter (fun e => decide (DateTime.le e.2 pe)) := by
          simp [List.filter_cons, hle]
        rw [hfil, getLast?_cons_eq_some]
        cases hcase : (rest.filter fun e => decide (DateTime.le e.2 pe)).getLast? with
        | none => simp [hcase]
        | some z => simp [hcase]
      · have hscan : scanStage ((name, ts) :: rest) pe acc = acc := by
          simp [scanStage, hle]
        have hfil : ((name, ts) :: rest).filter (fun e => decide (DateTime.le e.2 pe)) = [] := by
          refine List.filter_eq_nil_iff.mpr ?_
          intro e he
          simp only [decide_eq_true_eq]
          intro hepe
          rcases List.mem_cons.mp he with rfl | hes
          · exact hle hepe
          · exact hle (DateTime.le_trans (hx e hes) hepe)
        rw [hscan, hfil]
        rfl

/-! ### Facts about the reconstructed progression -/

theorem progression_pairwise (r : DealRecord) :
    (get_deal_stage_progression r).Pairwise evLe :=
  sortEvents_pairwise (stageEvents r)

theorem progression_perm (r : DealRecord) :
    List.Perm (get_deal_stage_progression r) (stageEvents r) :=
  sortEvents_perm (stageEvents r)

/-! ### Shape of the per-deal row and of the whole matrix -/

theorem dealRowCells_spec (deal : DealRecord) (f : Frequency) :
    ∀ (pds : List DateTime) (cells : List String),
      dealRowCells deal f pds = some cells →
      cells.length = pds.length ∧
      ∀ (i : Nat) (pd : DateTime), pds[i]? = some pd →
        ∃ pe, periodEnd f pd = some pe ∧ cells[i]? = some (matrixCell deal pe) := by
  intro pds
  induction pds with
  | nil =>
      intro cells h
      simp only [dealRowCells] at h
      obtain rfl : ([] : List String) = cells := Option.some.inj h
      exact ⟨rfl, by intro i pd hpd; simp at hpd⟩
  | cons pd0 rest ih =>
      intro cells h
      simp only [dealRowCells] at h
      cases hpe : periodEnd f pd0 with
      | none => rw [hpe] at h; simp at h
      | some pe0 =>
          rw [hpe] at h
          cases hrec : dealRowCells deal f rest with
          | none => rw [hrec] at h; simp at h
          | some cs =>
              rw [hrec] at h
              obtain rfl : matrixCell deal pe0 :: cs = cells := Option.some.inj h
              obtain ⟨hlen, hidx⟩ := ih cs hrec
              refine ⟨by simp [hlen], ?_⟩
              intro i pd hpd
              cases i with
              | zero =>
                  simp only [List.getElem?_cons_zero] at hpd
                  obtain rfl : pd0 = pd := Option.some.inj hpd
                  exact ⟨pe0, hpe, by simp only [List.getElem?_cons_zero]⟩
              | succ j =>
                  simp only [List.getElem?_cons_succ] at hpd ⊢
                  exact hidx j pd hpd

theorem matrixRows_spec (f : Frequency) (pds : List DateTime) :
    ∀ (deals : List DealRecord) (rows : List MatrixRow),
      matrixRows f pds deals = some rows →
      rows.length = deals.length ∧
      ∀ (i : Nat) (deal : DealRecord), deals[i]? = some deal →
        ∃ cs, dealRowCells deal f pds = some cs ∧
          rows[i]? = some ⟨deal.dealname, deal.deal_id, cs⟩ := by
  intro deals
  induction deals with
  | nil =>
      intro rows h
      simp only [matrixRows] at h
      obtain rfl : ([] : List MatrixRow) = rows := Option.some.inj h
      exact ⟨rfl, by intro i deal hd; simp at hd⟩
  | cons d0 rest ih =>
      intro rows h
      simp only [matrixRows] at h
      cases hcs : dealRowCells d0 f pds with
      | none => rw [hcs] at h; simp at h
      | some cs =>
          rw [hcs] at h
          cases hrec : matrixRows f pds rest with
          | none => rw [hrec] at h; simp at h
          | some rs =>
              rw [hrec] at h
              obtain rfl : (⟨d0.dealname, d0.deal_id, cs⟩ : MatrixRow) :: rs = rows :=
                Option.some.inj h
              obtain ⟨hlen, hidx⟩ := ih rs hrec
              refine ⟨by simp [hlen], ?_⟩
              intro i deal hd
              cases i with
              | zero =>
                  simp only [List.getElem?_cons_zero] at hd
                  obtain rfl : d0 = deal := Option.some.inj hd
                  exact ⟨cs, hcs, by simp only [List.getElem?_cons_zero]⟩
              | succ j =>
                  simp only [List.getElem?_cons_succ] at hd ⊢
                  exact hidx j deal hd

/-! ### Calendar-step facts -/

theorem DateTime.lt_trans {a b c : DateTime} (h1 : DateTime.lt a b)
    (h2 : DateTime.lt b c) : DateTime.lt a c := by
  unfold DateTime.lt at *; omega

instance : IsTrans DateTime DateTime.lt := ⟨fun _ _ _ => DateTime.lt_trans⟩

theorem daysInMonth_le_31 (y m : Nat) : daysInMonth y m ≤ 31 := by
  unfold daysInMonth
  split
  · split <;> omega
  · split <;> omega

theorem daysInMonth_ge_28 (y m : Nat) : 28 ≤ daysInMonth y m := by
  unfold daysInMonth
  split
  · split <;> omega
  · split <;> omega

theorem lt_nextDay (t : DateTime) : DateTime.lt t ⟨nextDay t.date, t.sec⟩ := by
  obtain ⟨⟨y, m, d⟩, s⟩ := t
  unfold nextDay DateTime.lt
  dsimp only
  split
  · dsimp only; omega
  · split
    · dsimp only; omega
    · dsimp only; omega

theorem addDaysDate_succ (n : Nat) (d : Date) :
    addDaysDate (n + 1) d = addDaysDate n (nextDay d) := rfl

theorem lt_addDays (n : Nat) : ∀ t : DateTime, DateTime.lt t (DateTime.addDays (n + 1) t) := by
  induction n with
  | zero => exact fun t => lt_nextDay t
  | succ k ih =>
      intro t
      have step : DateTime.addDays (k + 2) t = DateTime.addDays (k + 1) ⟨nextDay t.date, t.sec⟩ := rfl
      rw [step]
      exact DateTime.lt_trans (lt_nextDay t) (ih ⟨nextDay t.date, t.sec⟩)

theorem monthStep_lt {t u : DateTime} (h : monthStep t = some u) : DateTime.lt t u := by
  unfold monthStep at h
  split at h
  · split at h
    · obtain rfl := Option.some.inj h
      unfold DateTime.lt
      dsimp only
      omega
    · exact absurd h (by simp)
  · split at h
    · obtain rfl := Option.some.inj h
      unfold DateTime.lt
      dsimp only
      omega
    · exact absurd h (by simp)

theorem freqStep_lt {f : Frequency} {t u : DateTime} (h : freqStep f t = some u) :
    DateTime.lt t u := by
  cases f with
  | Daily => obtain rfl := Option.some.inj h; exact lt_addDays 0 t
  | Weekly => obtain rfl := Option.some.inj h; exact lt_addDays 6 t
  | Monthly => exact monthStep_lt h

theorem stepIter_le {f : Frequency} :
    ∀ {k : Nat} {t d : DateTime}, stepIter f k t = some d → t = d ∨ DateTime.lt t d := by
  intro k
  induction k with
  | zero => intro t d h; exact Or.inl (Option.some.inj h)
  | succ j ih =>
      intro t d h
      simp only [stepIter] at h
      cases hstep : freqStep f t with
      | none => rw [hstep] at h; simp at h
      | some t' =>
          rw [hstep] at h
          rcases ih h with rfl | hlt
          · exact Or.inr (freqStep_lt hstep)
          · exact Or.inr (DateTime.lt_trans (freqStep_lt hstep) hlt)

/-! ### The period-generation loop: shape of a successful run -/

theorem genPeriodsAux_spec (e : DateTime) (f : Frequency) :
    ∀ (fuel : Nat) (cur : DateTime) (l : List DateTime),
      genPeriodsAux fuel cur e f = some l →
      (DateTime.le cur e → l.head? = some cur) ∧
      (¬ DateTime.le cur e → l = []) ∧
      List.Chain' (fun a b => freqStep f a = some b) l ∧
      (∀ d, d ∈ l ↔ ∃ k, stepIter f k cur = some d ∧ DateTime.le d e) := by
  intro fuel
  induction fuel with
  | zero => intro cur l h; simp [genPeriodsAux] at h
  | succ n ih =>
      intro cur l h
      by_cases hg : DateTime.le cur e
      · rw [genPeriodsAux, if_pos hg] at h
        cases hstep : freqStep f cur with
        | none => rw [hstep] at h; simp at h
        | some nxt =>
            rw [hstep] at h
            dsimp only at h
            cases hrec : genPeriodsAux n nxt e f with
            | none => rw [hrec] at h; simp at h
            | some rest =>
                rw [hrec] at h
                dsimp only at h
                obtain rfl : cur :: rest = l := Option.some.inj h
                obtain ⟨ih1, ih2, ih3, ih4⟩ := ih nxt rest hrec
                refine ⟨fun _ => rfl, fun hng => absurd hg hng, ?_, ?_⟩
                · refine List.chain'_cons'.mpr ⟨?_, ih3⟩
                  intro b hb
                  by_cases hnxt : DateTime.le nxt e
                  · rw [ih1 hnxt] at hb
                    obtain rfl := Option.some.inj hb
                    exact hstep
                  · rw [ih2 hnxt] at hb
                    simp at hb
                · intro d
                  constructor
                  · intro hd
                    rcases List.mem_cons.mp hd with rfl | hdr
                    · exact ⟨0, rfl, hg⟩
                    · obtain ⟨k, hk, hde⟩ := (ih4 d).mp hdr
                      refine ⟨k + 1, ?_, hde⟩
                      simp only [stepIter, hstep]
                      exact hk
                  · rintro ⟨k, hk, hde⟩
                    cases k with
                    | zero =>
                        obtain rfl : cur = d := Option.some.inj hk
                        exact List.mem_cons_self cur rest
                    | succ j =>
                        simp only [stepIter, hstep] at hk
                        exact List.mem_cons_of_mem cur ((ih4 d).mpr ⟨j, hk, hde⟩)
      · rw [genPeriodsAux, if_neg hg] at h
        obtain rfl : ([] : List DateTime) = l := Option.some.inj h
        refine ⟨fun hle => absurd hle hg, fun _ => rfl, List.chain'_nil, ?_⟩
        intro d
        simp only [List.not_mem_nil, false_iff]
        rintro ⟨k, hk, hde⟩
        rcases stepIter_le hk with rfl | hlt
        · exact hg hde
        · exact hg (DateTime.le_trans (DateTime.le_of_lt hlt) hde)

/-! ### Totality of the generation loop -/

theorem nextDay_valid {d : Date} (h : d.Valid) : (nextDay d).Valid := by
  obtain ⟨h1, h2, h3, h4⟩ := h
  unfold nextDay
  split
  · rename_i hlt
    unfold Date.Valid
    dsimp only
    omega
  · rename_i hge
    split
    · rename_i hm
      have h28 := daysInMonth_ge_28 d.year (d.month + 1)
      unfold Date.Valid
      dsimp only
      omega
    · have h28 := daysInMonth_ge_28 (d.year + 1) 1
      unfold Date.Valid
      dsimp only
      omega

theorem nextDay_index {d : Date} (h : d.Valid) : dateIndex d < dateIndex (nextDay d) := by
  obtain ⟨h1, h2, h3, h4⟩ := h
  have h31 := daysInMonth_le_31 d.year d.month
  unfold nextDay
  split
  · unfold dateIndex; dsimp only; omega
  · split
    · unfold dateIndex; dsimp only; omega
    · unfold dateIndex; dsimp only; omega

theorem addDaysDate_valid_index (n : Nat) :
    ∀ {d : Date}, d.Valid →
      (addDaysDate (n + 1) d).Valid ∧ dateIndex d < dateIndex (addDaysDate (n + 1) d) := by
  induction n with
  | zero =>
      intro d h
      exact ⟨nextDay_valid h, nextDay_index h⟩
  | succ k ih =>
      intro d h
      rw [addDaysDate_succ]
      obtain ⟨hv, hi⟩ := ih (nextDay_valid h)
      exact ⟨hv, by have := nextDay_index h; omega⟩

theorem addDays_valid_index_pos (n : Nat) (hn : 0 < n) {t : DateTime}
    (hv : t.date.Valid) :
    (DateTime.addDays n t).date.Valid ∧ dtIndex t < dtIndex (DateTime.addDays n t) := by
  cases n with
  | zero => exact absurd hn (by omega)
  | succ m =>
      have h := addDaysDate_valid_index m hv
      exact ⟨h.1, h.2⟩

theorem monthStep_total {t : DateTime} (hv : t.date.Valid) (h28 : t.date.day ≤ 28) :
    ∃ u, monthStep t = some u ∧ u.date.Valid ∧ u.date.day = t.date.day ∧
      dtIndex t < dtIndex u := by
  obtain ⟨h1, h2, h3, h4⟩ := hv
  unfold monthStep
  by_cases hm : t.date.month = 12
  · have hd := daysInMonth_ge_28 (t.date.year + 1) 1
    rw [if_pos hm, if_pos (by omega)]
    refine ⟨_, rfl, ?_, rfl, ?_⟩
    · unfold Date.Valid
      dsimp only
      omega
    · unfold dtIndex dateIndex
      dsimp only
      omega
  · have hd := daysInMonth_ge_28 t.date.year (t.date.month + 1)
    rw [if_neg hm, if_pos (by omega)]
    refine ⟨_, rfl, ?_, rfl, ?_⟩
    · unfold Date.Valid
      dsimp only
      omega
    · unfold dtIndex dateIndex
      dsimp only
      omega

theorem dtIndex_mono {a b : DateTime} (hv : a.date.Valid) (h : DateTime.le a b) :
    dtIndex a ≤ dtIndex b := by
  obtain ⟨h1, h2, h3, h4⟩ := hv
  have h31 := daysInMonth_le_31 a.date.year a.date.month
  unfold DateTime.le at h
  unfold dtIndex dateIndex
  omega

theorem freqStep_total (f : Frequency) {t : DateTime} (hv : t.date.Valid)
    (hm : f = Frequency.Monthly → t.date.day ≤ 28) :
    ∃ u, freqStep f t = some u ∧ u.date.Valid ∧
      (f = Frequency.Monthly → u.date.day ≤ 28) ∧ dtIndex t < dtIndex u := by
  cases f with
  | Daily =>
      refine ⟨DateTime.addDays 1 t, rfl, ?_, fun h => Frequency.noConfusion h, ?_⟩
      · exact (addDays_valid_index_pos 1 (by omega) hv).1
      · exact (addDays_valid_index_pos 1 (by omega) hv).2
  | Weekly =>
      refine ⟨DateTime.addDays 7 t, rfl, ?_, fun h => Frequency.noConfusion h, ?_⟩
      · exact (addDays_valid_index_pos 7 (by omega) hv).1
      · exact (addDays_valid_index_pos 7 (by omega) hv).2
  | Monthly =>
      obtain ⟨u, hu, huv, hud, hui⟩ := monthStep_total hv (hm rfl)
      exact ⟨u, hu, huv, fun _ => by have := hm rfl; omega, hui⟩

theorem genPeriodsAux_total (e : DateTime) (f : Frequency) :
    ∀ (fuel : Nat) (cur : DateTime), cur.date.Valid →
      (f = Frequency.Monthly → cur.date.day ≤ 28) →
      dtIndex e + 1 ≤ dtIndex cur + fuel →
      ∃ l, genPeriodsAux (fuel + 1) cur e f = some l := by
  intro fuel
  induction fuel with
  | zero =>
      intro cur hv _ hfuel
      have hng : ¬ DateTime.le cur e := by
        intro hle
        have := dtIndex_mono hv hle
        omega
      refine ⟨[], ?_⟩
      rw [genPeriodsAux]
      rw [if_neg hng]
  | succ n ih =>
      intro cur hv hm hfuel
      by_cases hg : DateTime.le cur e
      · obtain ⟨u, hu, huv, hum, hui⟩ := freqStep_total f hv hm
        obtain ⟨l, hl⟩ := ih u huv hum (by omega)
        refine ⟨cur :: l, ?_⟩
        rw [genPeriodsAux]
        rw [if_pos hg, hu]
        dsimp only
        rw [hl]
      · refine ⟨[], ?_⟩
        rw [genPeriodsAux]
        rw [if_neg hg]

theorem genPeriods_total {s : DateTime} (e : DateTime) (f : Frequency)
    (hv : s.date.Valid) (hm : f = Frequency.Monthly → s.date.day ≤ 28) :
    ∃ l, genPeriods s e f = some l := by
  unfold genPeriods periodFuel
  exact genPeriodsAux_total e f (dtIndex e + 1 - dtIndex s) s hv hm (by omega)

/-! ### Facts about the trailing-run computation -/

theorem dropWhile_head?_false {α : Type} (p : α → Bool) :
    ∀ (l : List α) {b : α}, (l.dropWhile p).head? = some b → p b = false := by
  intro l
  induction l with
  | nil => intro b h; simp at h
  | cons a tl ih =>
      intro b h
      rw [List.dropWhile_cons] at h
      by_cases hp : p a = true
      · rw [if_pos hp] at h
        exact ih h
      · rw [if_neg hp] at h
        obtain rfl : a = b := Option.some.inj h
        exact Bool.not_eq_true _ |>.mp hp

theorem trailing_run_decomp (l : List String) (x : String) :
    ∃ pre, l = pre ++ List.replicate ((l.reverse.takeWhile fun s => s == x).length) x ∧
      pre.getLast? ≠ some x := by
  refine ⟨(l.reverse.dropWhile fun s => s == x).reverse, ?_, ?_⟩
  · have hsplit : (l.reverse.takeWhile fun s => s == x) ++
        (l.reverse.dropWhile fun s => s == x) = l.reverse :=
      List.takeWhile_append_dropWhile _ _
    have hrepl : (l.reverse.takeWhile fun s => s == x).reverse =
        List.replicate (l.reverse.takeWhile fun s => s == x).reverse.length x := by
      refine List.eq_replicate_of_mem ?_
      intro b hb
      have hmem := List.mem_reverse.mp hb
      have := List.mem_takeWhile_imp hmem
      simpa using this
    calc l = ((l.reverse.takeWhile fun s => s == x) ++
          (l.reverse.dropWhile fun s => s == x)).reverse := by
            rw [hsplit, List.reverse_reverse]
      _ = (l.reverse.dropWhile fun s => s == x).reverse ++
          (l.reverse.takeWhile fun s => s == x).reverse := List.reverse_append _ _
      _ = (l.reverse.dropWhile fun s => s == x).reverse ++
          List.replicate ((l.reverse.takeWhile fun s => s == x).length) x := by
            rw [hrepl, List.length_reverse]
  · rw [List.getLast?_reverse]
    intro hcontra
    have := dropWhile_head?_false _ _ hcontra
    simp at this

theorem stagnationRow_eq_some {r : MatrixRow} {rec : StagnationRecord}
    (h : stagnationRow r = some rec) :
    ∃ last, (rowStages r).getLast? = some last ∧
      rec = ⟨r.dealName, r.dealId, last,
        ((rowStages r).reverse.takeWhile fun s => s == last).length,
        (rowStages r).length⟩ := by
  unfold stagnationRow at h
  cases hl : (rowStages r).getLast? with
  | none => rw [hl] at h; simp at h
  | some last =>
      rw [hl] at h
      dsimp only at h
      exact ⟨last, rfl, (Option.some.inj h).symm⟩

theorem stagnationRow_none {r : MatrixRow} (h : (rowStages r).getLast? = none) :
    stagnationRow r = none := by
  unfold stagnationRow
  rw [h]

/-! ### Concrete fixtures -/

/-- A timestamp at midnight, as `datetime.combine(d, datetime.min.time())`
produces for the analysis range. -/
def mkDT (y m d : Nat) : DateTime := ⟨⟨y, m, d⟩, 0⟩

/-- The deal of the spec scenario: created 2024-01-01, entered the
Sign-up stage (field `hs_v2_date_entered_1091569281`) on 2024-01-05 and
the Demo Booked stage (field `hs_v2_date_entered_qualifiedtobuy`) on
2024-01-20. -/
def dealD1 : DealRecord :=
  { deal_id := "D1"
    dealname := "Deal One"
    created_at := some (mkDT 2024 1 1)
    stageTs := [("hs_v2_date_entered_1091569281", mkDT 2024 1 5),
                ("hs_v2_date_entered_qualifiedtobuy", mkDT 2024 1 20)] }

/-- A deal created 2024-06-01 carrying an (implausible) earlier Sign-up
timestamp 2024-01-05. -/
def dealLate : DealRecord :=
  { deal_id := "L1"
    dealname := "Late"
    created_at := some (mkDT 2024 6 1)
    stageTs := [("hs_v2_date_entered_1091569281", mkDT 2024 1 5)] }

/-- A deal that never entered any stage. -/
def dealEmpty : DealRecord :=
  { deal_id := "E1"
    dealname := "Empty"
    created_at := some (mkDT 2024 1 1)
    stageTs := [] }

/-! ### Claim C2 -/

/-- C2, counterexample: on the spec scenario (deal created 2024-01-01,
Sign-up 2024-01-05, Demo Booked 2024-01-20, Weekly periods 2024-01-01
through 2024-01-29) the builder emits
["Sign-up", "Sign-up", "Demo Booked", "Demo Booked", "Demo Booked"],
not the row claimed by the spec, whose first week is empty and whose
stage changes land one week later: each cell holds the last stage entered
at or before the period END (start + 7 days), so the 2024-01-05 Sign-up
already shows in the week starting 2024-01-01. -/
theorem C2_counterexample :
    create_period_matrix [dealD1] (mkDT 2024 1 1) (mkDT 2024 1 29) Frequency.Weekly =
      some [⟨"Deal One", "D1",
        ["Sign-up", "Sign-up", "Demo Booked", "Demo Booked", "Demo Booked"]⟩] ∧
    (["Sign-up", "Sign-up", "Demo Booked", "Demo Booked", "Demo Booked"] : List String) ≠
      ["", "Sign-up", "Sign-up", "Demo Booked", "Demo Booked"] := by
  exact ⟨by decide, by decide⟩

/-- C2, amended: in the concrete scenario the builder's row is
week1(01-01) → "Sign-up", week2(01-08) → "Sign-up",
week3(01-15) → "Demo Booked", week4(01-22) → "Demo Booked",
week5(01-29) → "Demo Booked". -/
theorem C2_amended :
    create_period_matrix [dealD1] (mkDT 2024 1 1) (mkDT 2024 1 29) Frequency.Weekly =
      some [⟨"Deal One", "D1",
        ["Sign-up", "Sign-up", "Demo Booked", "Demo Booked", "Demo Booked"]⟩] := by
  decide

/-! ### Claim C3 -/

/-- C3, counterexample: Monthly period generation is not total — for the
valid start date 2024-01-31 (day-of-month 31) the first Monthly step
raises (modelled `none`), because `replace(month=2)` with day 31 is
invalid; and the Monthly end boundary of a period starting 2024-01-15 is
2024-02-15 (same day-of-month next month), not the first of the next
month. -/
theorem C3_counterexample :
    (mkDT 2024 1 31).date.Valid ∧
    DateTime.le (mkDT 2024 1 31) (mkDT 2024 3 1) ∧
    genPeriods (mkDT 2024 1 31) (mkDT 2024 3 1) Frequency.Monthly = none ∧
    periodEnd Frequency.Monthly (mkDT 2024 1 15) = some (mkDT 2024 2 15) ∧
    mkDT 2024 2 15 ≠ mkDT 2024 2 1 := by
  exact ⟨by decide, by decide, by decide, by decide, by decide⟩

theorem monthStep_day28 {t : DateTime} (hv : t.date.Valid) (h28 : t.date.day ≤ 28) :
    monthStep t = some (if t.date.month = 12 then ⟨⟨t.date.year + 1, 1, t.date.day⟩, t.sec⟩
      else ⟨⟨t.date.year, t.date.month + 1, t.date.day⟩, t.sec⟩) := by
  obtain ⟨h1, h2, h3, h4⟩ := hv
  unfold monthStep
  by_cases hm : t.date.month = 12
  · have := daysInMonth_ge_28 (t.date.year + 1) 1
    rw [if_pos hm, if_pos (by omega), if_pos hm]
  · have := daysInMonth_ge_28 t.date.year (t.date.month + 1)
    rw [if_neg hm, if_pos (by omega), if_neg hm]

theorem stepIter_monthly_inv :
    ∀ (k : Nat) {s d : DateTime}, s.date.Valid → s.date.day ≤ 28 →
      stepIter Frequency.Monthly k s = some d →
      d.date.Valid ∧ d.date.day = s.date.day := by
  intro k
  induction k with
  | zero =>
      intro s d hv _ h
      obtain rfl := Option.some.inj h
      exact ⟨hv, rfl⟩
  | succ j ih =>
      intro s d hv h28 h
      simp only [stepIter] at h
      obtain ⟨u, hu, huv, hud, _⟩ := monthStep_total hv h28
      rw [show freqStep Frequency.Monthly s = monthStep s from rfl, hu] at h
      have hres := ih huv (by omega) h
      exact ⟨hres.1, by omega⟩

/-- C3, amended: Monthly generation always succeeds when the (valid)
start date's day-of-month is at most 28 (a day that exists in every
month); the step advances the calendar month, wrapping December to
January of the next year, and keeps the day-of-month, so every generated
period start carries the start's day and the period's exclusive end
boundary is the same day-of-month in the next calendar month (the first
of the next month only when that day is 1).  For start days 29-31 the
generation can raise, as the counterexample shows. -/
theorem C3_amended (s e : DateTime) (hv : s.date.Valid) (h28 : s.date.day ≤ 28) :
    ∃ l, genPeriods s e Frequency.Monthly = some l ∧
      ∀ d ∈ l, d.date.Valid ∧ d.date.day = s.date.day ∧
        (d.date.month = 12 →
          periodEnd Frequency.Monthly d = some ⟨⟨d.date.year + 1, 1, d.date.day⟩, d.sec⟩) ∧
        (d.date.month ≠ 12 →
          periodEnd Frequency.Monthly d = some ⟨⟨d.date.year, d.date.month + 1, d.date.day⟩, d.sec⟩) := by
  obtain ⟨l, hl⟩ := genPeriods_total e Frequency.Monthly hv (fun _ => h28)
  refine ⟨l, hl, ?_⟩
  intro d hd
  have spec := genPeriodsAux_spec e Frequency.Monthly (periodFuel s e) s l hl
  obtain ⟨k, hk, _⟩ := (spec.2.2.2 d).mp hd
  obtain ⟨hdv, hdd⟩ := stepIter_monthly_inv k hv h28 hk
  refine ⟨hdv, hdd, ?_, ?_⟩
  · intro hm12
    show monthStep d = _
    rw [monthStep_day28 hdv (by omega), if_pos hm12]
  · intro hm12
    show monthStep d = _
    rw [monthStep_day28 hdv (by omega), if_neg hm12]

/-- C3, witness: from 2024-11-15 to 2025-02-01 the amended theorem
applies (valid start, day 15 ≤ 28) and generation spans the
December→January wrap. -/
theorem C3_witness :
    (mkDT 2024 11 15).date.Valid ∧ (mkDT 2024 11 15).date.day ≤ 28 ∧
    (∃ l, genPeriods (mkDT 2024 11 15) (mkDT 2025 2 1) Frequency.Monthly = some l ∧
      ∀ d ∈ l, d.date.Valid ∧ d.date.day = (mkDT 2024 11 15).date.day ∧
        (d.date.month = 12 →
          periodEnd Frequency.Monthly d = some ⟨⟨d.date.year + 1, 1, d.date.day⟩, d.sec⟩) ∧
        (d.date.month ≠ 12 →
          periodEnd Frequency.Monthly d = some ⟨⟨d.date.year, d.date.month + 1, d.date.day⟩, d.sec⟩)) :=
  ⟨by decide, by decide,
   C3_amended (mkDT 2024 11 15) (mkDT 2025 2 1) (by decide) (by decide)⟩

/-! ### Claim C6 -/

/-- C6: any successfully generated period sequence is oldest-first and
strictly increasing, contiguous (each element is the frequency step of
the previous one), starts at the requested start when start ≤ end, is
empty when start > end, and contains exactly the step iterates of the
start that are at or before the end. -/
theorem C6 (s e : DateTime) (f : Frequency) (l : List DateTime)
    (h : genPeriods s e f = some l) :
    (DateTime.le s e → l.head? = some s) ∧
    (DateTime.lt e s → l = []) ∧
    List.Chain' (fun a b => freqStep f a = some b) l ∧
    l.Pairwise DateTime.lt ∧
    (∀ d, d ∈ l ↔ ∃ k, stepIter f k s = some d ∧ DateTime.le d e) := by
  have spec := genPeriodsAux_spec e f (periodFuel s e) s l h
  refine ⟨spec.1, ?_, spec.2.2.1, ?_, spec.2.2.2⟩
  · intro hlt
    exact spec.2.1 (by rw [DateTime.not_le_iff_lt]; exact hlt)
  · exact List.chain'_iff_pairwise.mp (spec.2.2.1.imp fun a b hab => freqStep_lt hab)

/-- C6, witness: Daily from 2024-01-01 to 2024-01-03 generates exactly
the three days, and the theorem's conclusions hold there. -/
theorem C6_witness :
    genPeriods (mkDT 2024 1 1) (mkDT 2024 1 3) Frequency.Daily =
      some [mkDT 2024 1 1, mkDT 2024 1 2, mkDT 2024 1 3] ∧
    ((DateTime.le (mkDT 2024 1 1) (mkDT 2024 1 3) →
        ([mkDT 2024 1 1, mkDT 2024 1 2, mkDT 2024 1 3] : List DateTime).head? =
          some (mkDT 2024 1 1)) ∧
      (DateTime.lt (mkDT 2024 1 3) (mkDT 2024 1 1) →
        ([mkDT 2024 1 1, mkDT 2024 1 2, mkDT 2024 1 3] : List DateTime) = []) ∧
      List.Chain' (fun a b => freqStep Frequency.Daily a = some b)
        [mkDT 2024 1 1, mkDT 2024 1 2, mkDT 2024 1 3] ∧
      ([mkDT 2024 1 1, mkDT 2024 1 2, mkDT 2024 1 3] : List DateTime).Pairwise DateTime.lt ∧
      (∀ d, d ∈ ([mkDT 2024 1 1, mkDT 2024 1 2, mkDT 2024 1 3] : List DateTime) ↔
        ∃ k, stepIter Frequency.Daily k (mkDT 2024 1 1) = some d ∧
          DateTime.le d (mkDT 2024 1 3))) :=
  ⟨by decide, C6 (mkDT 2024 1 1) (mkDT 2024 1 3) Frequency.Daily
    [mkDT 2024 1 1, mkDT 2024 1 2, mkDT 2024 1 3] (by decide)⟩

/-! ### Claim C1 -/

theorem pairwise_le_getLast :
    ∀ {l : List (String × DateTime)} {b : String × DateTime}, l.Pairwise evLe →
      l.getLast? = some b → ∀ e ∈ l, DateTime.le e.2 b.2 := by
  intro l
  induction l with
  | nil => intro b _ hb; simp at hb
  | cons a tl ih =>
      intro b hp hb e he
      obtain ⟨ha, htl⟩ := List.pairwise_cons.mp hp
      cases tl with
      | nil =>
          obtain rfl : a = b := by simpa using hb
          obtain rfl : e = a := by simpa using he
          exact DateTime.le_refl e.2
      | cons c tl2 =>
          rw [List.getLast?_cons_cons] at hb
          rcases List.mem_cons.mp he with rfl | he2
          · exact ha b (List.mem_of_getLast?_eq_some hb)
          · exact ih htl hb e he2

/-- C1, counterexample: the claim omits the creation check — a deal
created strictly after a generated period's end boundary gets an empty
cell even when a reconstructed stage event is at or before the boundary.
Here `dealLate` (created 2024-06-01, Sign-up 2024-01-05) gets "" for the
sole generated week 2024-01-01 (end boundary 2024-01-08), although the
most recent event at or before that boundary is the Sign-up event. -/
theorem C1_counterexample :
    genPeriods (mkDT 2024 1 1) (mkDT 2024 1 1) Frequency.Weekly = some [mkDT 2024 1 1] ∧
    periodEnd Frequency.Weekly (mkDT 2024 1 1) = some (mkDT 2024 1 8) ∧
    create_period_matrix [dealLate] (mkDT 2024 1 1) (mkDT 2024 1 1) Frequency.Weekly =
      some [⟨"Late", "L1", [""]⟩] ∧
    ((get_deal_stage_progression dealLate).filter fun e =>
        decide (DateTime.le e.2 (mkDT 2024 1 8))).getLast? =
      some ("Sign-up", mkDT 2024 1 5) ∧
    ("" : String) ≠ "Sign-up" := by
  exact ⟨by decide, by decide, by decide, by decide, by decide⟩

/-- C1, amended: for every deal whose creation timestamp is unknown or at
or before the period's end boundary, the emitted cell is the display name
of the last (in the tie-broken sorted event order) reconstructed event
with timestamp at or before the boundary, and the empty string when no
such event exists; that last kept event's timestamp is maximal among the
kept events, so it is the most recent one, ties resolved to the latest in
the deterministic event order. -/
theorem C1_amended (deal : DealRecord) (pe : DateTime)
    (h : ∀ c, deal.created_at = some c → DateTime.le c pe) :
    matrixCell deal pe =
      ((((get_deal_stage_progression deal).filter fun e =>
          decide (DateTime.le e.2 pe)).getLast?).map Prod.fst).getD "" ∧
    ∀ lastEv, ((get_deal_stage_progression deal).filter fun e =>
        decide (DateTime.le e.2 pe)).getLast? = some lastEv →
      ∀ e ∈ (get_deal_stage_progression deal).filter fun e => decide (DateTime.le e.2 pe),
        DateTime.le e.2 lastEv.2 := by
  have hscan := scanStage_eq pe (get_deal_stage_progression deal) ""
    (progression_pairwise deal)
  constructor
  · cases hc : deal.created_at with
    | none => simp only [matrixCell, hc]; exact hscan
    | some c =>
        have hnlt : ¬ DateTime.lt pe c := DateTime.not_lt_iff_le.mpr (h c hc)
        simp only [matrixCell, hc]
        rw [if_neg hnlt]
        exact hscan
  · intro lastEv hlast e he
    exact pairwise_le_getLast ((progression_pairwise deal).filter _) hlast e he

/-- C1, witness: for the scenario deal and boundary 2024-01-08 the
creation check passes and the cell is "Sign-up", the last event at or
before the boundary. -/
theorem C1_witness :
    matrixCell dealD1 (mkDT 2024 1 8) = "Sign-up" ∧
    matrixCell dealD1 (mkDT 2024 1 8) =
      ((((get_deal_stage_progression dealD1).filter fun e =>
          decide (DateTime.le e.2 (mkDT 2024 1 8))).getLast?).map Prod.fst).getD "" :=
  ⟨by decide,
   (C1_amended dealD1 (mkDT 2024 1 8) (by
      intro c hc
      obtain rfl := Option.some.inj hc
      decide)).1⟩

/-! ### Claim C4 -/

/-- C4: in every successfully built row, the cell of each period is
computed against that period's own end boundary: when the deal's
creation timestamp is known and strictly greater than that boundary the
cell is the empty string, whatever the stage timestamps are; when the
creation timestamp is absent the cell is just the progression scan — the
creation check never fires. -/
theorem C4 (deal : DealRecord) (f : Frequency) (pds : List DateTime)
    (row : List String) (h : dealRowCells deal f pds = some row)
    (i : Nat) (pd pe : DateTime) (hpd : pds[i]? = some pd)
    (hpe : periodEnd f pd = some pe) :
    (∀ c, deal.created_at = some c → DateTime.lt pe c → row[i]? = some "") ∧
    (deal.created_at = none →
      row[i]? = some (scanStage (get_deal_stage_progression deal) pe "")) := by
  obtain ⟨-, hidx⟩ := dealRowCells_spec deal f pds row h
  obtain ⟨pe', hpe', hrow⟩ := hidx i pd hpd
  obtain rfl : pe' = pe := Option.some.inj (hpe'.symm.trans hpe)
  constructor
  · intro c hc hlt
    have hcell : matrixCell deal pe' = "" := by
      simp only [matrixCell, hc]
      rw [if_pos hlt]
    rw [hrow, hcell]
  · intro hc
    have hcell : matrixCell deal pe' =
        scanStage (get_deal_stage_progression deal) pe' "" := by
      simp only [matrixCell, hc]
    rw [hrow, hcell]

/-- C4, witness: the single week starting 2024-01-01 (end boundary
2024-01-08) of the deal created 2024-06-01 gets an empty cell. -/
theorem C4_witness :
    dealRowCells dealLate Frequency.Weekly [mkDT 2024 1 1] = some [""] ∧
    ([mkDT 2024 1 1] : List DateTime)[0]? = some (mkDT 2024 1 1) ∧
    periodEnd Frequency.Weekly (mkDT 2024 1 1) = some (mkDT 2024 1 8) ∧
    ((∀ c, dealLate.created_at = some c → DateTime.lt (mkDT 2024 1 8) c →
        ([""] : List String)[0]? = some "") ∧
      (dealLate.created_at = none →
        ([""] : List String)[0]? =
          some (scanStage (get_deal_stage_progression dealLate) (mkDT 2024 1 8) ""))) :=
  ⟨by decide, by decide, by decide,
   C4 dealLate Frequency.Weekly [mkDT 2024 1 1] [""] (by decide) 0
     (mkDT 2024 1 1) (mkDT 2024 1 8) (by decide) (by decide)⟩

/-! ### Claim C5 -/

/-- C5: for a row having at least one non-empty cell, the analyzer emits
a record whose current stage is the rightmost non-empty cell, whose total
is the number of non-empty cells, and whose stagnant count is the length
of the maximal trailing run of the current stage inside the non-empty
cells taken oldest-to-newest (empty cells were removed first, so they
neither break nor extend the run). -/
theorem C5 (r : MatrixRow) (h : ∃ s ∈ r.cells, s ≠ "") :
    ∃ rec, stagnationRow r = some rec ∧
      some rec.current_stage = (rowStages r).getLast? ∧
      rec.total_periods = (rowStages r).length ∧
      ∃ pre, rowStages r = pre ++ List.replicate rec.stagnant_periods rec.current_stage ∧
        pre.getLast? ≠ some rec.current_stage := by
  obtain ⟨s, hs, hne⟩ := h
  have hmem : s ∈ rowStages r := List.mem_filter.mpr ⟨hs, by simpa using hne⟩
  obtain ⟨last, hlast⟩ :=
    Option.isSome_iff_exists.mp (List.getLast?_isSome.mpr (List.ne_nil_of_mem hmem))
  refine ⟨⟨r.dealName, r.dealId, last,
      ((rowStages r).reverse.takeWhile fun x => x == last).length, (rowStages r).length⟩,
    ?_, hlast.symm, rfl, ?_⟩
  · unfold stagnationRow
    rw [hlast]
  · exact trailing_run_decomp (rowStages r) last

/-- The `[A, A, B, _, B, B]` row of the stagnation example (the gap in
the middle is an empty cell). -/
def rowC5 : MatrixRow := ⟨"w", "w1", ["A", "A", "B", "", "B", "B"]⟩

/-- C5, witness: a row with non-empty values `[A, A, B, B, B]` yields
current stage B, 3 stagnant periods and 5 total non-empty periods. -/
theorem C5_witness :
    (∃ s ∈ rowC5.cells, s ≠ "") ∧
    stagnationRow rowC5 = some ⟨"w", "w1", "B", 3, 5⟩ ∧
    (∃ rec, stagnationRow rowC5 = some rec ∧
      some rec.current_stage = (rowStages rowC5).getLast? ∧
      rec.total_periods = (rowStages rowC5).length ∧
      ∃ pre, rowStages rowC5 = pre ++ List.replicate rec.stagnant_periods rec.current_stage ∧
        pre.getLast? ≠ some rec.current_stage) :=
  ⟨⟨"A", by decide, by decide⟩, by decide, C5 rowC5 ⟨"A", by decide, by decide⟩⟩

/-! ### Claim C7 -/

/-- A record that never entered any stage reconstructs to the empty
progression. -/
theorem progression_of_empty (r : DealRecord) (hstage : r.stageTs = []) :
    get_deal_stage_progression r = [] := by
  have hse : stageEvents r = [] := by
    unfold stageEvents
    rw [hstage]
    rfl
  unfold get_deal_stage_progression
  rw [hse]
  rfl

/-- C7: the reconstructed progression holds exactly the catalog stages
whose field carries a timestamp on the record, sorted ascending by
timestamp; events with equal timestamps keep the catalog insertion order
(the stable-sort filter characterization); a record that never entered a
stage yields the empty sequence (and the function is pure, hence
deterministic and stable across repeated calls on the same input). -/
theorem C7 (r : DealRecord) :
    (∀ (n : String) (t : DateTime), (n, t) ∈ get_deal_stage_progression r ↔
      ∃ fld, (fld, n) ∈ stage_mapping ∧ List.lookup fld r.stageTs = some t) ∧
    List.Perm (get_deal_stage_progression r) (stageEvents r) ∧
    (get_deal_stage_progression r).Pairwise evLe ∧
    (∀ t, (get_deal_stage_progression r).filter (fun e => e.2 == t) =
      (stageEvents r).filter fun e => e.2 == t) ∧
    (r.stageTs = [] → get_deal_stage_progression r = []) := by
  refine ⟨?_, progression_perm r, progression_pairwise r, sortEvents_filter_ts _,
    progression_of_empty r⟩
  intro n t
  rw [(progression_perm r).mem_iff]
  unfold stageEvents
  rw [List.mem_filterMap]
  constructor
  · rintro ⟨⟨fld, nm⟩, hmem, hmap⟩
    rw [Option.map_eq_some'] at hmap
    obtain ⟨ts, hts, heq⟩ := hmap
    rw [Prod.mk.injEq] at heq
    obtain ⟨rfl, rfl⟩ := heq
    exact ⟨fld, hmem, hts⟩
  · rintro ⟨fld, hmem, hts⟩
    refine ⟨(fld, n), hmem, ?_⟩
    dsimp only
    rw [hts]
    rfl

/-- C7, witness: the record with no entered stages reconstructs to the
empty progression without an error. -/
theorem C7_witness :
    dealEmpty.stageTs = [] ∧ get_deal_stage_progression dealEmpty = [] :=
  ⟨rfl, (C7 dealEmpty).2.2.2.2 rfl⟩

/-! ### Claim C8 -/

/-- C8, counterexample: a deal with no stage timestamps does produce an
all-empty row that is present in the matrix, but the Stagnation Analyzer
does not yield a record with an empty current stage for it — the
`len(stages) > 0` guard makes the analyzer itself drop the deal from the
report, so the exclusion is not left to the caller. -/
theorem C8_counterexample :
    create_period_matrix [dealEmpty] (mkDT 2024 1 1) (mkDT 2024 1 15) Frequency.Weekly =
      some [⟨"Empty", "E1", ["", "", ""]⟩] ∧
    calculate_stagnant_deals [⟨"Empty", "E1", ["", "", ""]⟩] = [] ∧
    ¬ ∃ rec ∈ calculate_stagnant_deals [⟨"Empty", "E1", ["", "", ""]⟩],
        rec.current_stage = "" := by
  exact ⟨by decide, by decide, by decide⟩

/-- C8, amended: a deal with no stage timestamps gets a row in the matrix
with one cell per period, all empty; on such an all-empty row the
Stagnation Analyzer emits no record at all — it skips the deal itself
(without crashing), rather than emitting an empty current stage and
leaving the exclusion to the caller. -/
theorem C8_amended (deal : DealRecord) (f : Frequency) (pds : List DateTime)
    (cells : List String) (hstage : deal.stageTs = [])
    (h : dealRowCells deal f pds = some cells) :
    cells.length = pds.length ∧ (∀ c ∈ cells, c = "") ∧
    stagnationRow ⟨deal.dealname, deal.deal_id, cells⟩ = none ∧
    calculate_stagnant_deals [⟨deal.dealname, deal.deal_id, cells⟩] = [] := by
  have hcell : ∀ pe, matrixCell deal pe = "" := by
    intro pe
    cases hc : deal.created_at with
    | none =>
        simp only [matrixCell, hc, progression_of_empty deal hstage]
        rfl
    | some c =>
        simp only [matrixCell, hc, progression_of_empty deal hstage]
        split
        · rfl
        · rfl
  obtain ⟨hlen, hidx⟩ := dealRowCells_spec deal f pds cells h
  have hall : ∀ c ∈ cells, c = "" := by
    intro c hc
    obtain ⟨i, hget⟩ := List.getElem?_of_mem hc
    have hilen : i < pds.length := by
      rw [← hlen]
      obtain ⟨hi, -⟩ := List.getElem?_eq_some_iff.mp hget
      exact hi
    obtain ⟨pd, hpd⟩ : ∃ pd, pds[i]? = some pd :=
      ⟨pds[i], List.getElem?_eq_some_iff.mpr ⟨hilen, rfl⟩⟩
    obtain ⟨pe, -, hrow⟩ := hidx i pd hpd
    rw [hget, hcell] at hrow
    exact Option.some.inj hrow
  have hnone : stagnationRow ⟨deal.dealname, deal.deal_id, cells⟩ = none := by
    apply stagnationRow_none
    have hfil : rowStages ⟨deal.dealname, deal.deal_id, cells⟩ = [] := by
      refine List.filter_eq_nil_iff.mpr ?_
      intro a ha
      simp [hall a ha]
    rw [hfil]
    rfl
  refine ⟨hlen, hall, hnone, ?_⟩
  simp [calculate_stagnant_deals, hnone]

/-- C8, witness: the degenerate deal over three weekly periods gets the
all-empty three-cell row and the analyzer emits nothing for it. -/
theorem C8_witness :
    dealEmpty.stageTs = [] ∧
    dealRowCells dealEmpty Frequency.Weekly
      [mkDT 2024 1 1, mkDT 2024 1 8, mkDT 2024 1 15] = some ["", "", ""] ∧
    (["", "", ""] : List String).length =
      ([mkDT 2024 1 1, mkDT 2024 1 8, mkDT 2024 1 15] : List DateTime).length ∧
    (∀ c ∈ (["", "", ""] : List String), c = "") ∧
    stagnationRow ⟨dealEmpty.dealname, dealEmpty.deal_id, ["", "", ""]⟩ = none ∧
    calculate_stagnant_deals [⟨dealEmpty.dealname, dealEmpty.deal_id, ["", "", ""]⟩] = [] := by
  refine ⟨rfl, by decide, ?_⟩
  have h := C8_amended dealEmpty Frequency.Weekly
    [mkDT 2024 1 1, mkDT 2024 1 8, mkDT 2024 1 15] ["", "", ""] rfl (by decide)
  exact ⟨h.1, h.2.1, h.2.2.1, h.2.2.2⟩

/-! ### Claim C9 -/

/-- C9: parsing never escapes as an exception — when the standard parse,
the add-milliseconds retry, the ISO8601 retry and the manual-format retry
all raise on a string, the parser returns the absent value rather than
propagating, and a raw record column holding such a string loads exactly
as if the column were absent, so one malformed field degrades only that
one value and row construction always proceeds. -/
theorem C9 (p_std p_iso p_manual : String → Except Unit DateTime) (badStr : String)
    (h1 : p_std badStr = Except.error ())
    (h2 : p_std (badStr.dropRight 1 ++ ".000Z") = Except.error ())
    (h3 : p_iso badStr = Except.error ())
    (h4 : p_manual badStr = Except.error ()) :
    parse_single_date p_std p_iso p_manual (some badStr) = none ∧
    parse_single_date p_std p_iso p_manual none = none ∧
    ∀ (id nm : String) (cr : Option String)
      (pre post : List (String × Option String)) (fld : String),
      loadDealRecord (parse_single_date p_std p_iso p_manual)
          ⟨id, nm, cr, pre ++ (fld, some badStr) :: post⟩ =
        loadDealRecord (parse_single_date p_std p_iso p_manual)
          ⟨id, nm, cr, pre ++ (fld, none) :: post⟩ := by
  have hbad : parse_single_date p_std p_iso p_manual (some badStr) = none := by
    simp only [parse_single_date]
    by_cases hstr : badStr = ""
    · rw [if_pos hstr]
    · rw [if_neg hstr, h1]
      dsimp only
      by_cases hcond : (badStr.contains 'T' && badStr.contains 'Z' &&
          !(badStr.contains '.') && badStr.endsWith "Z") = true
      · rw [if_pos hcond, h2]
        dsimp only
        by_cases hlen : (badStr.length = 20 && badStr.endsWith "Z") = true
        · rw [if_pos hlen, h4]
        · rw [if_neg hlen]
      · rw [if_neg hcond, h3]
        dsimp only
        by_cases hlen : (badStr.length = 20 && badStr.endsWith "Z") = true
        · rw [if_pos hlen, h4]
        · rw [if_neg hlen]
  have hnone : parse_single_date p_std p_iso p_manual none = none := rfl
  refine ⟨hbad, hnone, ?_⟩
  intro id nm cr pre post fld
  simp [loadDealRecord, List.filterMap_append, List.filterMap_cons, hbad, hnone]

/-- A parsing primitive that raises on every input. -/
def alwaysErr : String → Except Unit DateTime := fun _ => Except.error ()

/-- C9, witness: with primitives that always raise, the string
"not-a-date" parses to the absent value, the absent input stays absent,
and a raw record with that string in a stage column loads exactly as the
record with the column missing. -/
theorem C9_witness :
    parse_single_date alwaysErr alwaysErr alwaysErr (some "not-a-date") = none ∧
    parse_single_date alwaysErr alwaysErr alwaysErr none = none ∧
    loadDealRecord (parse_single_date alwaysErr alwaysErr alwaysErr)
        ⟨"d1", "n1", none, [("f", some "not-a-date")]⟩ =
      loadDealRecord (parse_single_date alwaysErr alwaysErr alwaysErr)
        ⟨"d1", "n1", none, [("f", none)]⟩ := by
  have h := C9 alwaysErr alwaysErr alwaysErr "not-a-date" rfl rfl rfl rfl
  exact ⟨h.1, h.2.1, h.2.2 "d1" "n1" none [] [] "f"⟩

/-! ### Claim C10 -/

/-- C10: every record the analyzer emits has a non-empty current stage,
at least one stagnant period (the rightmost populated cell itself), and
no more stagnant periods than its total count of populated cells. -/
theorem C10 (rows : List MatrixRow) (rec : StagnationRecord)
    (h : rec ∈ calculate_stagnant_deals rows) :
    rec.current_stage ≠ "" ∧ 1 ≤ rec.stagnant_periods ∧
      rec.stagnant_periods ≤ rec.total_periods := by
  obtain ⟨r, hr, hsr⟩ := List.mem_filterMap.mp h
  obtain ⟨last, hlast, rfl⟩ := stagnationRow_eq_some hsr
  refine ⟨?_, ?_, ?_⟩
  · dsimp only
    have hmem := List.mem_of_getLast?_eq_some hlast
    have hp := (List.mem_filter.mp hmem).2
    simpa using hp
  · dsimp only
    have hrev : (rowStages r).reverse.head? = some last := by
      rw [List.head?_reverse]
      exact hlast
    cases hcase : (rowStages r).reverse with
    | nil => rw [hcase] at hrev; simp at hrev
    | cons b tl =>
        rw [hcase] at hrev
        obtain rfl : b = last := by simpa using hrev
        rw [List.takeWhile_cons]
        simp
  · dsimp only
    calc ((rowStages r).reverse.takeWhile fun s => s == last).length
        ≤ (rowStages r).reverse.length := (List.takeWhile_sublist _).length_le
      _ = (rowStages r).length := List.length_reverse _

/-- C10, witness: the example row emits the record (B, 3, 5), which has a
non-empty stage, a positive stagnant count, and stagnant ≤ total. -/
theorem C10_witness :
    (⟨"w", "w1", "B", 3, 5⟩ : StagnationRecord) ∈ calculate_stagnant_deals [rowC5] ∧
    (("B" : String) ≠ "" ∧ 1 ≤ 3 ∧ 3 ≤ 5) :=
  ⟨by decide, C10 [rowC5] ⟨"w", "w1", "B", 3, 5⟩ (by decide)⟩

end HubspotDashboard

